import Mathlib

/- Shallow embedding of the voicing engine (src/core/voicing.py) and the
counterpoint rule engine (src/core/counterpoint.py) of the Prelude-Zero
repository.  Python integers are modelled as `Int`, beat positions (Python
floats carrying small beat counts) as `ℚ`, Python lists and tuples as
`List`.  Python `%` with the positive modulus 12 agrees with `Int.emod`,
and Python `//` agrees with `Int.fdiv`.  The two `while` loops of the
source are rendered with an explicit fuel argument that provably never
runs out, so that every definition is executable by the kernel. -/

namespace PreludeZero

/-- Cartesian product of a list of choice lists, in the order of Python
`itertools.product`: the first list is the outermost loop. -/
def pyProduct : List (List Int) → List (List Int)
  | [] => [[]]
  | o :: rest => o.flatMap fun x => (pyProduct rest).map fun ys => x :: ys

/-- Python `min(l, key=score)`: the first element of `l` attaining the
minimal score (Python `min` keeps the earliest of equal keys).  Returns
`[]` on the empty list, where Python would raise. -/
def pyMin (score : List Int → ℚ) : List (List Int) → List Int
  | [] => []
  | x :: xs => xs.foldl (fun best c => if score c < score best then c else best) x

namespace Voicing

/-- Interval constant from src/core/voicing.py. -/
def PERFECT_FIFTH : Nat := 7

/-- Interval constant from src/core/voicing.py (octave mod 12). -/
def PERFECT_OCTAVE : Nat := 0

/-- Default lower bound for upper voices (G3). -/
def UPPER_LOW : Int := 55

/-- Default upper bound for upper voices (G5). -/
def UPPER_HIGH : Int := 79

/-- The `while midi <= high: options.append(midi); midi += 12` loop of
`_pc_to_midi_options`, with explicit fuel.  `(high + 1 - midi).toNat` steps
always suffice because `midi` grows by 12 at each iteration. -/
def optionsFromFuel (high : Int) : Nat → Int → List Int
  | 0, _ => []
  | fuel + 1, midi =>
    if midi ≤ high then midi :: optionsFromFuel high fuel (midi + 12) else []

/-- The option-collecting loop of `_pc_to_midi_options`, starting at `midi`. -/
def optionsFrom (midi high : Int) : List Int :=
  optionsFromFuel high (high + 1 - midi).toNat midi

/-- All MIDI note numbers for a pitch class within `[low, high]`
(`_pc_to_midi_options`), starting from the lowest occurrence
`low + ((pc - low) % 12)`. -/
def _pc_to_midi_options (pc low high : Int) : List Int :=
  optionsFrom (low + (pc - low) % 12) high

/-- Body of `enumerate_voicings` in the case where no pitch class is
filtered out: cartesian product of the per-class options, each combination
sorted, combinations with duplicate notes dropped, result deduplicated
(the Python `set` of sorted tuples). -/
def enumerate_base (pitch_classes : List Int) (low high : Int) : List (List Int) :=
  let options := pitch_classes.map fun pc => _pc_to_midi_options pc low high
  (((pyProduct options).map (List.insertionSort (· ≤ ·))).filter
    fun v => decide v.Nodup).dedup

/-- The recursion of `enumerate_voicings` with explicit fuel.  At fuel 0
the widening guard is skipped; this is sound because the fuel used by
`enumerate_voicings`, `(11 - (high - low)).toNat`, is zero only when the
range is at least 11 semitones wide, in which case every pitch class has a
realization and the guard is false anyway (`enumerate_voicings_eq`). -/
def enumerateFuel : Nat → List Int → Int → Int → List (List Int)
  | 0, pitch_classes, low, high => enumerate_base pitch_classes low high
  | fuel + 1, pitch_classes, low, high =>
    let options := pitch_classes.map fun pc => _pc_to_midi_options pc low high
    if (options.filter fun o => !o.isEmpty).length < pitch_classes.length then
      enumerateFuel fuel pitch_classes (low - 12) (high + 12)
    else enumerate_base pitch_classes low high

/-- Generate all possible voicings of a set of pitch classes
(`enumerate_voicings`): each pitch class becomes exactly one MIDI note in
`[low, high]`; if some pitch class has no realization in range, the range
is symmetrically widened by ±12 semitones and the enumeration retried. -/
def enumerate_voicings (pitch_classes : List Int) (low high : Int) : List (List Int) :=
  enumerateFuel (11 - (high - low)).toNat pitch_classes low high

/-- Check for parallel fifths or octaves between two voicings
(`has_parallels`): some voice pair `i < j` moves by the same nonzero
displacement while standing a perfect fifth or octave apart in `v1`.
Returns `false` when the voice counts differ. -/
def has_parallels (v1 v2 : List Int) : Bool :=
  if v1.length ≠ v2.length then false
  else
    (List.range v1.length).any fun i =>
      (List.range v1.length).any fun j =>
        decide (i < j) &&
        decide (v2.getD i 0 - v1.getD i 0 = v2.getD j 0 - v1.getD j 0) &&
        decide (v2.getD i 0 - v1.getD i 0 ≠ 0) &&
        (decide ((v1.getD j 0 - v1.getD i 0).natAbs % 12 = PERFECT_OCTAVE) ||
         decide ((v1.getD j 0 - v1.getD i 0).natAbs % 12 = PERFECT_FIFTH))

/-- Like `has_parallels` but returns detailed descriptions per offending
pair (`parallels_detail`). -/
def parallels_detail (v1 v2 : List Int) : List String :=
  if v1.length ≠ v2.length then []
  else
    (List.range v1.length).flatMap fun i =>
      (List.range v1.length).filterMap fun j =>
        if i < j ∧ v2.getD i 0 - v1.getD i 0 = v2.getD j 0 - v1.getD j 0 ∧
            v2.getD i 0 - v1.getD i 0 ≠ 0 then
          if (v1.getD j 0 - v1.getD i 0).natAbs % 12 = PERFECT_FIFTH then
            some ("∥5th voices " ++ toString i ++ "," ++ toString j ++ ": " ++
              toString (v1.getD i 0) ++ "→" ++ toString (v2.getD i 0) ++ ", " ++
              toString (v1.getD j 0) ++ "→" ++ toString (v2.getD j 0) ++
              ", d=" ++ toString (v2.getD i 0 - v1.getD i 0))
          else if (v1.getD j 0 - v1.getD i 0).natAbs % 12 = PERFECT_OCTAVE then
            some ("∥8ve voices " ++ toString i ++ "," ++ toString j ++ ": " ++
              toString (v1.getD i 0) ++ "→" ++ toString (v2.getD i 0) ++ ", " ++
              toString (v1.getD j 0) ++ "→" ++ toString (v2.getD j 0) ++
              ", d=" ++ toString (v2.getD i 0 - v1.getD i 0))
          else none
        else none

/-- Adjacent voices within `max_gap` semitones (`spacing_ok`). -/
def spacing_ok (voicing : List Int) (max_gap : Int) : Bool :=
  (voicing.zip voicing.tail).all fun p => decide (p.2 - p.1 ≤ max_gap)

/-- All upper voices strictly above the bass (`voices_above_bass`). -/
def voices_above_bass (voicing : List Int) (bass : Int) : Bool :=
  voicing.all fun n => decide (bass < n)

/-- Emergency fallback of `find_best_voicing` when enumeration returns no
candidates: naive per-pitch-class placement near the range midpoint
(`mid + ((pc - mid % 12) % 12)`, sorted). -/
def fbv_fallback (pitch_classes : List Int) (effective_low high : Int) : List Int :=
  let mid := Int.fdiv (effective_low + high) 2
  List.insertionSort (· ≤ ·) (pitch_classes.map fun pc => mid + (pc - mid % 12) % 12)

/-- Steps 2 and 3 of `find_best_voicing`: hard filters with staged
relaxation (spacing and above-bass together, then above-bass only, then
all candidates), followed by the full-chord parallel filter against the
previous chord, which is kept only when it leaves at least one candidate. -/
def fbv_valid (pitch_classes : List Int) (bass_midi : Int)
    (prev_upper : Option (List Int)) (prev_bass : Option Int)
    (low high max_spacing : Int) : List (List Int) :=
  let effective_low := max low (bass_midi + 1)
  let candidates := enumerate_voicings pitch_classes effective_low high
  let valid1 := candidates.filter fun c =>
    spacing_ok c max_spacing && voices_above_bass c bass_midi
  let valid2 := if valid1.isEmpty then
    candidates.filter fun c => voices_above_bass c bass_midi else valid1
  let valid3 := if valid2.isEmpty then candidates else valid2
  match prev_upper with
  | none => valid3
  | some prev =>
    if prev.isEmpty then valid3
    else
      let prev_full := match prev_bass with
        | some pb => List.insertionSort (· ≤ ·) (pb :: prev)
        | none => prev
      let no_parallels := valid3.filter fun c =>
        decide ((List.insertionSort (· ≤ ·) (bass_midi :: c)).length ≠ prev_full.length) ||
        !(has_parallels prev_full (List.insertionSort (· ≤ ·) (bass_midi :: c)))
      if no_parallels.isEmpty then valid3 else no_parallels

/-- Compactness score used by `find_best_voicing` for a first chord:
distance of the mean pitch from the range midpoint plus half the span.
The exact divisions (`np.mean`, `/ 2.0`, `span * 0.5`) are written with
`Rat.divInt`, the same rational values in a kernel-computable form. -/
def centerScore (effective_low high : Int) (c : List Int) : ℚ :=
  |Rat.divInt c.sum c.length - Rat.divInt (effective_low + high) 2| +
    Rat.divInt (c.getLastD 0 - c.headD 0) 2

/-- Span-only score used by `find_best_voicing` when the previous voicing
has a different voice count: ten times the span of the candidate. -/
def spanScore (c : List Int) : ℚ :=
  ((c.getLastD 0 : ℚ) - (c.headD 0 : ℚ)) * 10

/-- Step 4 of `find_best_voicing`: the candidate score.  With a previous
voicing of equal length, L1 distance times ten plus the span; with a
previous voicing of different length, the span times ten; with no (or an
empty) previous voicing, the compactness score around the range center. -/
def fbv_score (prev_upper : Option (List Int)) (effective_low high : Int)
    (c : List Int) : ℚ :=
  match prev_upper with
  | none => centerScore effective_low high c
  | some prev =>
    if prev.isEmpty then centerScore effective_low high c
    else if c.length = prev.length then
      (((List.zipWith (fun a b => ((a - b).natAbs : Int)) c prev).sum * 10 +
        (c.getLastD 0 - c.headD 0) : Int) : ℚ)
    else spanScore c

/-- Find the optimal voicing for upper voices via exhaustive search
(`find_best_voicing`). -/
def find_best_voicing (pitch_classes : List Int) (bass_midi : Int)
    (prev_upper : Option (List Int)) (prev_bass : Option Int)
    (low high max_spacing : Int) : List Int :=
  let effective_low := max low (bass_midi + 1)
  if (enumerate_voicings pitch_classes effective_low high).isEmpty then
    fbv_fallback pitch_classes effective_low high
  else
    pyMin (fbv_score prev_upper effective_low high)
      (fbv_valid pitch_classes bass_midi prev_upper prev_bass low high max_spacing)

/-- The `while len(result) < n` doubling loop of `_ensure_n_pcs`, with
explicit fuel; `n - len(result)` iterations always suffice since each
iteration appends exactly one element. -/
def ensureLoop (n : Nat) (order : List Int) : Nat → List Int → Nat → List Int
  | 0, result, _ => result
  | fuel + 1, result, idx =>
    if result.length < n then
      ensureLoop n order fuel (result ++ [order.getD (idx % order.length) 0]) (idx + 1)
    else result

/-- Ensure exactly `n` pitch classes for the upper voices (`_ensure_n_pcs`).
Returns `none` exactly where Python raises `ZeroDivisionError`: a doubling
is needed (`len(pcs) < n`) while `all_pcs` is empty. -/
def _ensure_n_pcs (pcs : List Int) (n : Nat) (bass_pc : Int)
    (all_pcs : List Int) : Option (List Int) :=
  if pcs.length = n then some pcs
  else if n < pcs.length then
    let non_bass := pcs.filter fun pc => decide (pc ≠ bass_pc)
    if n ≤ non_bass.length then some (non_bass.take n) else some (pcs.take n)
  else if all_pcs.isEmpty then none
  else some (ensureLoop n all_pcs (n - pcs.length) pcs 0)

end Voicing

namespace Counterpoint

/-- Issue severity (src/core/counterpoint.py `Severity`). -/
inductive Severity where
  | ERROR
  | WARNING
  | INFO
  deriving DecidableEq, Repr

/-- A flagged counterpoint issue (src/core/counterpoint.py `Issue`). -/
structure Issue where
  severity : Severity
  beat : Nat
  rule : String
  detail : String
  deriving DecidableEq, Repr

/-- A note with pitch, onset and duration (src/core/counterpoint.py `Note`). -/
structure Note where
  midi : Int
  onset : ℚ
  duration : ℚ
  deriving DecidableEq, Repr

/-- The `name` property of `Note`: pitch-class name plus octave number. -/
def Note.name (n : Note) : String :=
  let names := ["C", "C#", "D", "Eb", "E", "F", "F#", "G", "Ab", "A", "Bb", "B"]
  names.getD (n.midi % 12).toNat "C" ++ toString (Int.fdiv n.midi 12 - 1)

/-- Perfect interval classes: unison/octave and fifth. -/
def PERFECT_INTERVALS : List Nat := [0, 7]

/-- Interval in semitones mod 12, undirected (`interval_class`). -/
def interval_class (midi1 midi2 : Int) : Nat :=
  (midi1 - midi2).natAbs % 12

/-- The onset-keyed dictionary `{n.onset: n for n in v}`: the last note of
`v` at the given onset, if any. -/
def noteLookup (v : List Note) (t : ℚ) : Option Note :=
  (v.filter fun n => decide (n.onset = t)).getLast?

/-- The loop of `_align_simultaneous`: walk the sorted onsets, looking each
voice up and carrying forward the last seen note of each voice. -/
def alignGo (m1 m2 : ℚ → Option Note) :
    List ℚ → Option Note → Option Note → List (Option Note × Option Note)
  | [], _, _ => []
  | t :: ts, last1, last2 =>
    let n1 := (m1 t).orElse fun _ => last1
    let n2 := (m2 t).orElse fun _ => last2
    (n1, n2) ::
      alignGo m1 m2 ts (if n1.isSome then n1 else last1)
        (if n2.isSome then n2 else last2)

/-- Align two voices by onset time (`_align_simultaneous`): one pair per
distinct onset across both voices, `none` where a voice has not sounded
yet. -/
def _align_simultaneous (v1 v2 : List Note) : List (Option Note × Option Note) :=
  let onsets := List.insertionSort (· ≤ ·) ((v1.map Note.onset ++ v2.map Note.onset).dedup)
  alignGo (noteLookup v1) (noteLookup v2) onsets none none

/-- Body of the `check_parallels` loop at index `i`. -/
def parallelIssue (pairs : List (Option Note × Option Note)) (i : Nat) : Option Issue :=
  match pairs.getD i (none, none), pairs.getD (i + 1) (none, none) with
  | (some a1, some a2), (some b1, some b2) =>
    if interval_class a1.midi a2.midi ∈ PERFECT_INTERVALS ∧
        interval_class b1.midi b2.midi ∈ PERFECT_INTERVALS ∧
        interval_class a1.midi a2.midi = interval_class b1.midi b2.midi then
      if b1.midi - a1.midi ≠ 0 ∧ b2.midi - a2.midi ≠ 0 ∧
          (b1.midi - a1.midi).sign = (b2.midi - a2.midi).sign then
        some ⟨Severity.ERROR, i, "parallel_perfect",
          "Parallel " ++
            (if interval_class a1.midi a2.midi = 0 then "8ve" else "5th") ++
            ": " ++ a1.name ++ "," ++ a2.name ++ " → " ++ b1.name ++ "," ++ b2.name⟩
      else none
    else none
  | _, _ => none

/-- Detect parallel fifths and octaves between two voices
(`check_parallels`). -/
def check_parallels (v1 v2 : List Note) : List Issue :=
  let pairs := _align_simultaneous v1 v2
  (List.range (pairs.length - 1)).filterMap (parallelIssue pairs)

/-- The condition under which `check_parallels` flags consecutive aligned
index `i`: both voices have a (possibly carried-forward) note at aligned
timepoints `i` and `i+1`, the interval class is in {0, 7} at both
timepoints and identical at both, and both voices move by nonzero amounts
with equal sign. -/
def parallelAt (v1 v2 : List Note) (i : Nat) : Prop :=
  ∃ a1 a2 b1 b2 : Note,
    (_align_simultaneous v1 v2).getD i (none, none) = (some a1, some a2) ∧
    (_align_simultaneous v1 v2).getD (i + 1) (none, none) = (some b1, some b2) ∧
    interval_class a1.midi a2.midi ∈ PERFECT_INTERVALS ∧
    interval_class b1.midi b2.midi ∈ PERFECT_INTERVALS ∧
    interval_class a1.midi a2.midi = interval_class b1.midi b2.midi ∧
    b1.midi - a1.midi ≠ 0 ∧ b2.midi - a2.midi ≠ 0 ∧
    (b1.midi - a1.midi).sign = (b2.midi - a2.midi).sign

end Counterpoint

end PreludeZero

namespace PreludeZero

lemma pyProduct_mem_iff {L : List (List Int)} {xs : List Int} :
    xs ∈ pyProduct L ↔ List.Forall₂ (fun x l => x ∈ l) xs L := by
  induction L generalizing xs with
  | nil => simp [pyProduct, List.forall₂_nil_right_iff]
  | cons o rest ih =>
    simp only [pyProduct, List.mem_flatMap, List.mem_map, List.forall₂_cons_right_iff]
    constructor
    · rintro ⟨x, hx, ys, hys, rfl⟩
      exact ⟨x, ys, hx, ih.mp hys, rfl⟩
    · rintro ⟨x, ys, hx, hys, rfl⟩
      exact ⟨x, hx, ys, ih.mpr hys, rfl⟩

lemma pyMin_aux (f : List Int → ℚ) :
    ∀ (xs : List (List Int)) (x : List Int),
      (xs.foldl (fun best c => if f c < f best then c else best) x = x ∨
        xs.foldl (fun best c => if f c < f best then c else best) x ∈ xs) ∧
      f (xs.foldl (fun best c => if f c < f best then c else best) x) ≤ f x ∧
      ∀ c ∈ xs,
        f (xs.foldl (fun best c => if f c < f best then c else best) x) ≤ f c := by
  intro xs
  induction xs with
  | nil =>
    intro x
    exact ⟨Or.inl rfl, le_refl _, by simp⟩
  | cons y ys ih =>
    intro x
    rw [List.foldl_cons]
    by_cases h : f y < f x
    · rw [if_pos h]
      obtain ⟨hmem, hlex, hle⟩ := ih y
      refine ⟨?_, le_trans hlex (le_of_lt h), ?_⟩
      · rcases hmem with h1 | h1
        · rw [h1]; exact Or.inr (List.mem_cons_self _ _)
        · exact Or.inr (List.mem_cons_of_mem _ h1)
      · intro c hc
        rcases List.mem_cons.mp hc with rfl | hc
        · exact hlex
        · exact hle c hc
    · rw [if_neg h]
      obtain ⟨hmem, hlex, hle⟩ := ih x
      refine ⟨?_, hlex, ?_⟩
      · rcases hmem with h1 | h1
        · exact Or.inl h1
        · exact Or.inr (List.mem_cons_of_mem _ h1)
      · intro c hc
        rcases List.mem_cons.mp hc with rfl | hc
        · exact le_trans hlex (not_lt.mp h)
        · exact hle c hc

lemma pyMin_spec (f : List Int → ℚ) (l : List (List Int)) (h : l ≠ []) :
    pyMin f l ∈ l ∧ ∀ c ∈ l, f (pyMin f l) ≤ f c := by
  cases l with
  | nil => exact absurd rfl h
  | cons x xs =>
    obtain ⟨hmem, hlex, hle⟩ := pyMin_aux f xs x
    refine ⟨?_, ?_⟩
    · rcases hmem with h1 | h1
      · rw [show pyMin f (x :: xs) = xs.foldl (fun best c => if f c < f best then c else best) x from rfl, h1]
        exact List.mem_cons_self _ _
      · exact List.mem_cons_of_mem _ h1
    · intro c hc
      rcases List.mem_cons.mp hc with rfl | hc
      · exact hlex
      · exact hle c hc

lemma forall₂_mem_exists : ∀ {xs : List Int} {L : List (List Int)},
    List.Forall₂ (fun x l => x ∈ l) xs L → ∀ x ∈ xs, ∃ l ∈ L, x ∈ l := by
  intro xs L h
  induction h with
  | nil => simp
  | @cons a l as ls hal _ ih =>
    intro x hx
    rcases List.mem_cons.mp hx with rfl | hx
    · exact ⟨l, List.mem_cons_self _ _, hal⟩
    · obtain ⟨l', hl', hxl'⟩ := ih x hx
      exact ⟨l', List.mem_cons_of_mem _ hl', hxl'⟩

lemma forall₂_exists_mem : ∀ {xs : List Int} {L : List (List Int)},
    List.Forall₂ (fun x l => x ∈ l) xs L → ∀ l ∈ L, ∃ x ∈ xs, x ∈ l := by
  intro xs L h
  induction h with
  | nil => simp
  | @cons a l as ls hal _ ih =>
    intro l' hl'
    rcases List.mem_cons.mp hl' with rfl | hl'
    · exact ⟨a, List.mem_cons_self _ _, hal⟩
    · obtain ⟨x, hx, hxl'⟩ := ih l' hl'
      exact ⟨x, List.mem_cons_of_mem _ hx, hxl'⟩

end PreludeZero

namespace PreludeZero

namespace Voicing

lemma optionsFromFuel_congr (high : Int) :
    ∀ (f1 f2 : Nat) (midi : Int), (high + 1 - midi).toNat ≤ f1 →
      (high + 1 - midi).toNat ≤ f2 →
      optionsFromFuel high f1 midi = optionsFromFuel high f2 midi := by
  intro f1
  induction f1 with
  | zero =>
    intro f2 midi h1 h2
    have hm : ¬ midi ≤ high := by omega
    cases f2 with
    | zero => rfl
    | succ m => simp [optionsFromFuel, hm]
  | succ n ih =>
    intro f2 midi h1 h2
    by_cases hm : midi ≤ high
    · cases f2 with
      | zero => omega
      | succ m =>
        simp only [optionsFromFuel, if_pos hm]
        rw [ih m (midi + 12) (by omega) (by omega)]
    · cases f2 with
      | zero => simp [optionsFromFuel, hm]
      | succ m => simp [optionsFromFuel, hm]

lemma optionsFrom_eq (midi high : Int) :
    optionsFrom midi high =
      if midi ≤ high then midi :: optionsFrom (midi + 12) high else [] := by
  by_cases hm : midi ≤ high
  · rw [if_pos hm]
    unfold optionsFrom
    have h1 : (high + 1 - midi).toNat = ((high + 1 - midi).toNat - 1) + 1 := by omega
    rw [h1]
    simp only [optionsFromFuel, if_pos hm]
    rw [optionsFromFuel_congr high ((high + 1 - midi).toNat - 1)
      (high + 1 - (midi + 12)).toNat (midi + 12) (by omega) (by omega)]
  · rw [if_neg hm]
    unfold optionsFrom
    have h0 : (high + 1 - midi).toNat = 0 := by omega
    rw [h0]
    rfl

lemma mem_optionsFromFuel {high : Int} :
    ∀ {fuel : Nat} {midi p : Int}, p ∈ optionsFromFuel high fuel midi →
      ∃ k : Nat, p = midi + 12 * k ∧ p ≤ high := by
  intro fuel
  induction fuel with
  | zero => intro midi p h; simp [optionsFromFuel] at h
  | succ n ih =>
    intro midi p h
    simp only [optionsFromFuel] at h
    by_cases hm : midi ≤ high
    · rw [if_pos hm] at h
      rcases List.mem_cons.mp h with rfl | h
      · exact ⟨0, by omega, hm⟩
      · obtain ⟨k, hk, hle⟩ := ih h
        exact ⟨k + 1, by omega, hle⟩
    · rw [if_neg hm] at h
      simp at h

lemma mem_options_bounds {pc low high p : Int}
    (h : p ∈ _pc_to_midi_options pc low high) :
    low ≤ p ∧ p ≤ high ∧ p % 12 = pc % 12 := by
  obtain ⟨k, hk, hle⟩ := mem_optionsFromFuel h
  refine ⟨by omega, hle, by omega⟩

lemma options_head_mem {pc low high : Int} (h : low + (pc - low) % 12 ≤ high) :
    low + (pc - low) % 12 ∈ _pc_to_midi_options pc low high := by
  unfold _pc_to_midi_options
  rw [optionsFrom_eq, if_pos h]
  exact List.mem_cons_self _ _

lemma options_eq_nil_iff {pc low high : Int} :
    _pc_to_midi_options pc low high = [] ↔ high < low + (pc - low) % 12 := by
  unfold _pc_to_midi_options
  rw [optionsFrom_eq]
  split_ifs with h
  · exact iff_of_false (by simp) (by omega)
  · exact iff_of_true rfl (by omega)

lemma options_ne_nil_of_wide {pc low high : Int} (h : low + 11 ≤ high) :
    _pc_to_midi_options pc low high ≠ [] := by
  rw [ne_eq, options_eq_nil_iff]
  omega

lemma guard_iff (pcs : List Int) (low high : Int) :
    (((pcs.map fun pc => _pc_to_midi_options pc low high).filter
        fun o => !o.isEmpty).length < pcs.length) ↔
      ∃ pc ∈ pcs, _pc_to_midi_options pc low high = [] := by
  have hlen : (pcs.map fun pc => _pc_to_midi_options pc low high).length = pcs.length :=
    List.length_map _ _
  rw [← hlen, List.length_filter_lt_length_iff_exists]
  constructor
  · rintro ⟨o, ho, hno⟩
    obtain ⟨pc, hpc, rfl⟩ := List.mem_map.mp ho
    refine ⟨pc, hpc, ?_⟩
    simpa using hno
  · rintro ⟨pc, hpc, hempty⟩
    exact ⟨_, List.mem_map.mpr ⟨pc, hpc, rfl⟩, by simp [hempty]⟩

lemma guard_false_of_wide (pcs : List Int) {low high : Int} (h : low + 11 ≤ high) :
    ¬ (((pcs.map fun pc => _pc_to_midi_options pc low high).filter
        fun o => !o.isEmpty).length < pcs.length) := by
  rw [guard_iff]
  rintro ⟨pc, hpc, hempty⟩
  exact options_ne_nil_of_wide h hempty

lemma enumerateFuel_congr :
    ∀ (f1 f2 : Nat) (pcs : List Int) (low high : Int),
      (11 - (high - low)).toNat ≤ f1 → (11 - (high - low)).toNat ≤ f2 →
      enumerateFuel f1 pcs low high = enumerateFuel f2 pcs low high := by
  intro f1
  induction f1 with
  | zero =>
    intro f2 pcs low high h1 h2
    have hw : low + 11 ≤ high := by omega
    cases f2 with
    | zero => rfl
    | succ m =>
      simp only [enumerateFuel]
      rw [if_neg (guard_false_of_wide pcs hw)]
  | succ n ih =>
    intro f2 pcs low high h1 h2
    by_cases hg : ((pcs.map fun pc => _pc_to_midi_options pc low high).filter
        fun o => !o.isEmpty).length < pcs.length
    · obtain ⟨pc, _, hempty⟩ := (guard_iff pcs low high).mp hg
      have hlt : high < low + (pc - low) % 12 := options_eq_nil_iff.mp hempty
      cases f2 with
      | zero => omega
      | succ m =>
        simp only [enumerateFuel]
        rw [if_pos hg, if_pos hg]
        exact ih m pcs (low - 12) (high + 12) (by omega) (by omega)
    · cases f2 with
      | zero =>
        simp only [enumerateFuel]
        rw [if_neg hg]
      | succ m =>
        simp only [enumerateFuel]
        rw [if_neg hg, if_neg hg]

lemma enumerate_voicings_eq (pcs : List Int) (low high : Int) :
    enumerate_voicings pcs low high =
      if ((pcs.map fun pc => _pc_to_midi_options pc low high).filter
            fun o => !o.isEmpty).length < pcs.length then
        enumerate_voicings pcs (low - 12) (high + 12)
      else enumerate_base pcs low high := by
  unfold enumerate_voicings
  by_cases hg : ((pcs.map fun pc => _pc_to_midi_options pc low high).filter
      fun o => !o.isEmpty).length < pcs.length
  · rw [if_pos hg]
    obtain ⟨pc, _, hempty⟩ := (guard_iff pcs low high).mp hg
    have hlt : high < low + (pc - low) % 12 := options_eq_nil_iff.mp hempty
    have hm : (11 - (high - low)).toNat = ((11 - (high - low)).toNat - 1) + 1 := by
      omega
    rw [hm]
    simp only [enumerateFuel]
    rw [if_pos hg]
    exact enumerateFuel_congr _ _ pcs _ _ (by omega) (by omega)
  · rw [if_neg hg]
    rcases Nat.eq_zero_or_pos (11 - (high - low)).toNat with h0 | hpos
    · rw [h0]
      rfl
    · have hm : (11 - (high - low)).toNat = ((11 - (high - low)).toNat - 1) + 1 := by
        omega
      rw [hm]
      simp only [enumerateFuel]
      rw [if_neg hg]

lemma mem_enumerate_base {pcs : List Int} {low high : Int} {v : List Int} :
    v ∈ enumerate_base pcs low high ↔
      ∃ combo ∈ pyProduct (pcs.map fun pc => _pc_to_midi_options pc low high),
        v = List.insertionSort (· ≤ ·) combo ∧ v.Nodup := by
  simp only [enumerate_base, List.mem_dedup, List.mem_filter, List.mem_map,
    decide_eq_true_eq]
  constructor
  · rintro ⟨⟨combo, hc, rfl⟩, hnd⟩
    exact ⟨combo, hc, rfl, hnd⟩
  · rintro ⟨combo, hc, rfl, hnd⟩
    exact ⟨⟨combo, hc, rfl⟩, hnd⟩

end Voicing

end PreludeZero

namespace PreludeZero

namespace Voicing

lemma ensureLoop_length (n : Nat) (order : List Int) :
    ∀ (fuel : Nat) (result : List Int) (idx : Nat),
      n ≤ result.length + fuel → result.length ≤ n →
      (ensureLoop n order fuel result idx).length = n := by
  intro fuel
  induction fuel with
  | zero =>
    intro result idx h1 h2
    have hr : ensureLoop n order 0 result idx = result := rfl
    rw [hr]
    omega
  | succ m ih =>
    intro result idx h1 h2
    simp only [ensureLoop]
    by_cases hlt : result.length < n
    · rw [if_pos hlt]
      exact ih _ _ (by simp [List.length_append]; omega)
        (by simp [List.length_append]; omega)
    · rw [if_neg hlt]
      omega

end Voicing

open Voicing

/-- C1: `has_parallels v1 v2` on two same-length voicings is true exactly
when there are voice indices `i < j` with equal nonzero displacement
`v2[i] - v1[i] = v2[j] - v1[j]` and with `|v1[j] - v1[i]| mod 12` equal to
0 or 7; in particular it is true on `(60, 67) → (62, 69)` and false on
every pair `(v, v)`. -/
theorem C1_has_parallels_iff :
    (∀ v1 v2 : List Int, v1.length = v2.length →
      (has_parallels v1 v2 = true ↔
        ∃ i j, i < j ∧ j < v1.length ∧
          v2.getD i 0 - v1.getD i 0 = v2.getD j 0 - v1.getD j 0 ∧
          v2.getD i 0 - v1.getD i 0 ≠ 0 ∧
          ((v1.getD j 0 - v1.getD i 0).natAbs % 12 = 0 ∨
            (v1.getD j 0 - v1.getD i 0).natAbs % 12 = 7))) ∧
    has_parallels [60, 67] [62, 69] = true ∧
    ∀ v : List Int, has_parallels v v = false := by
  have key : ∀ v1 v2 : List Int, v1.length = v2.length →
      (has_parallels v1 v2 = true ↔
        ∃ i j, i < j ∧ j < v1.length ∧
          v2.getD i 0 - v1.getD i 0 = v2.getD j 0 - v1.getD j 0 ∧
          v2.getD i 0 - v1.getD i 0 ≠ 0 ∧
          ((v1.getD j 0 - v1.getD i 0).natAbs % 12 = 0 ∨
            (v1.getD j 0 - v1.getD i 0).natAbs % 12 = 7)) := by
    intro v1 v2 hlen
    unfold has_parallels
    rw [if_neg (by simp [hlen])]
    simp only [List.any_eq_true, List.mem_range, Bool.and_eq_true, Bool.or_eq_true,
      decide_eq_true_eq, PERFECT_OCTAVE, PERFECT_FIFTH]
    constructor
    · rintro ⟨i, hi, j, hj, ⟨⟨hij, heq⟩, hne⟩, hint⟩
      exact ⟨i, j, hij, hj, heq, hne, hint⟩
    · rintro ⟨i, j, hij, hj, heq, hne, hint⟩
      exact ⟨i, by omega, j, hj, ⟨⟨hij, heq⟩, hne⟩, hint⟩
  refine ⟨key, by decide, ?_⟩
  intro v
  by_contra hfalse
  have htrue : has_parallels v v = true := by
    cases h : has_parallels v v
    · exact absurd h hfalse
    · rfl
  obtain ⟨i, j, hij, hj, heq, hne, hint⟩ := (key v v rfl).mp htrue
  exact hne (by omega)

/-- Witness for C1 at the textbook input `(60, 67) → (62, 69)`. -/
theorem C1_witness : has_parallels [60, 67] [62, 69] = true :=
  (C1_has_parallels_iff.1 [60, 67] [62, 69] rfl).mpr
    ⟨0, 1, by decide, by decide, by decide, by decide, by decide⟩

/-- C10: on voicings of different lengths, `has_parallels` returns false
and `parallels_detail` returns the empty list. -/
theorem C10_length_mismatch :
    ∀ v1 v2 : List Int, v1.length ≠ v2.length →
      has_parallels v1 v2 = false ∧ parallels_detail v1 v2 = [] := by
  intro v1 v2 h
  constructor
  · unfold has_parallels
    rw [if_pos h]
  · unfold parallels_detail
    rw [if_pos h]

/-- Witness for C10 at a one-voice versus two-voice input. -/
theorem C10_witness :
    has_parallels [60] [60, 67] = false ∧ parallels_detail [60] [60, 67] = [] :=
  C10_length_mismatch [60] [60, 67] (by decide)

/-- C7: evaluation of `_ensure_n_pcs` at the claimed doubling scenario: one
given class of a root-position triad, `all_pcs = [0, 4, 7]`, expanded to
three classes.  The code appends the root (0) first and then the THIRD (4),
following the order of `all_pcs`, not the fifth (7) that the claim, the
docstring and the inline comment prescribe. -/
theorem C7_doubling_order_eval :
    _ensure_n_pcs [0] 3 0 [0, 4, 7] = some [0, 0, 4] := by decide

/-- C8: `_ensure_n_pcs` always returns exactly `n` pitch classes (as
`some`), whether the input has more than, fewer than, or exactly `n`
elements, when `n ≥ 1` and `all_pcs` is non-empty. -/
theorem C8_ensure_n_pcs_length :
    ∀ (pcs : List Int) (n : Nat) (bass_pc : Int) (all_pcs : List Int),
      1 ≤ n → all_pcs ≠ [] →
      ∃ l, _ensure_n_pcs pcs n bass_pc all_pcs = some l ∧ l.length = n := by
  intro pcs n bass_pc all_pcs hn hall
  simp only [_ensure_n_pcs]
  split_ifs with h1 h2 h3 h4
  · exact ⟨pcs, rfl, h1⟩
  · refine ⟨_, rfl, ?_⟩
    rw [List.length_take]
    omega
  · refine ⟨_, rfl, ?_⟩
    rw [List.length_take]
    omega
  · exact absurd (List.isEmpty_iff.mp h4) hall
  · refine ⟨_, rfl, ?_⟩
    exact ensureLoop_length n all_pcs _ pcs 0 (by omega) (by omega)

/-- Witness for C8 at an input with more classes than `n`. -/
theorem C8_witness :
    ∃ l, _ensure_n_pcs [0, 4, 7, 11] 3 0 [0, 4, 7] = some l ∧ l.length = 3 :=
  C8_ensure_n_pcs_length [0, 4, 7, 11] 3 0 [0, 4, 7] (by decide) (by decide)

end PreludeZero

namespace PreludeZero

namespace Voicing

lemma forall₂_map_self {pcs : List Int} {f : Int → Int} {g : Int → List Int}
    (h : ∀ pc ∈ pcs, f pc ∈ g pc) :
    List.Forall₂ (fun x l => x ∈ l) (pcs.map f) (pcs.map g) := by
  induction pcs with
  | nil => simp
  | cons a l ih =>
    simp only [List.map_cons]
    exact List.Forall₂.cons (h a (List.mem_cons_self _ _))
      (ih fun pc hpc => h pc (List.mem_cons_of_mem _ hpc))

lemma C9_aux (pcs : List Int) :
    ∀ (m : Nat) (low high : Int), (11 - (high - low)).toNat ≤ m →
      ∃ k : Nat,
        (∀ pc ∈ pcs, _pc_to_midi_options pc (low - 12 * k) (high + 12 * k) ≠ []) ∧
        enumerate_voicings pcs low high =
          enumerate_base pcs (low - 12 * k) (high + 12 * k) := by
  intro m
  induction m with
  | zero =>
    intro low high hm
    refine ⟨0, ?_, ?_⟩
    · intro pc hpc
      have h : _pc_to_midi_options pc low high ≠ [] := options_ne_nil_of_wide (by omega)
      simpa using h
    · have h : enumerate_voicings pcs low high = enumerate_base pcs low high := by
        rw [enumerate_voicings_eq, if_neg (guard_false_of_wide pcs (by omega))]
      simpa using h
  | succ m ih =>
    intro low high hm
    by_cases hg : ((pcs.map fun pc => _pc_to_midi_options pc low high).filter
        fun o => !o.isEmpty).length < pcs.length
    · obtain ⟨pc0, _, hempty⟩ := (guard_iff pcs low high).mp hg
      have hlt : high < low + (pc0 - low) % 12 := options_eq_nil_iff.mp hempty
      obtain ⟨k, hne, heq⟩ := ih (low - 12) (high + 12) (by omega)
      have e1 : low - 12 * ((k + 1 : Nat) : Int) = low - 12 - 12 * (k : Int) := by
        push_cast
        ring
      have e2 : high + 12 * ((k + 1 : Nat) : Int) = high + 12 + 12 * (k : Int) := by
        push_cast
        ring
      refine ⟨k + 1, ?_, ?_⟩
      · intro pc hpc
        rw [e1, e2]
        exact hne pc hpc
      · rw [enumerate_voicings_eq, if_pos hg, heq, e1, e2]
    · have hall : ∀ pc ∈ pcs, _pc_to_midi_options pc low high ≠ [] := by
        have hnex : ¬ ∃ pc ∈ pcs, _pc_to_midi_options pc low high = [] :=
          fun hx => hg ((guard_iff pcs low high).mpr hx)
        push_neg at hnex
        exact hnex
      refine ⟨0, ?_, ?_⟩
      · intro pc hpc
        simpa using hall pc hpc
      · have h : enumerate_voicings pcs low high = enumerate_base pcs low high := by
          rw [enumerate_voicings_eq, if_neg hg]
        simpa using h

end Voicing

open Voicing

/-- C9: `enumerate_voicings` terminates on every input: after finitely
many symmetric widenings by 12 semitones per side, a range is reached in
which every pitch class has at least one realization, and the result is
the plain (non-recursive) enumeration over that widened range. -/
theorem C9_enumerate_terminates :
    ∀ (pcs : List Int) (low high : Int), ∃ k : Nat,
      (∀ pc ∈ pcs, _pc_to_midi_options pc (low - 12 * k) (high + 12 * k) ≠ []) ∧
      enumerate_voicings pcs low high =
        enumerate_base pcs (low - 12 * k) (high + 12 * k) :=
  fun pcs low high => C9_aux pcs (11 - (high - low)).toNat low high (le_refl _)

/-- C3 (amended): for a duplicate-free list of pitch classes of size at
most 4 and an inclusive range of width at least 24, `enumerate_voicings`
returns at least one candidate, and every candidate is strictly ascending,
duplicate-free, with every pitch realizing one of the input classes and
every input class realized.  (The claim as stated, over arbitrary
pitch-class lists, fails when a class is repeated: see the
counterexample.) -/
theorem C3_enumerate_complete :
    ∀ (pcs : List Int) (low high : Int),
      pcs.Nodup → (∀ pc ∈ pcs, 0 ≤ pc ∧ pc < 12) → pcs.length ≤ 4 →
      low + 24 ≤ high →
      enumerate_voicings pcs low high ≠ [] ∧
      ∀ v ∈ enumerate_voicings pcs low high,
        List.Sorted (· < ·) v ∧ v.Nodup ∧
        (∀ p ∈ v, p % 12 ∈ pcs) ∧ (∀ pc ∈ pcs, ∃ p ∈ v, p % 12 = pc) := by
  intro pcs low high hnd hbounds hle4 hwide
  have hbase : enumerate_voicings pcs low high = enumerate_base pcs low high := by
    rw [enumerate_voicings_eq, if_neg (guard_false_of_wide pcs (by omega))]
  rw [hbase]
  constructor
  · have hmap : (pcs.map fun pc => low + (pc - low) % 12).Nodup := by
      apply List.Nodup.map_on ?_ hnd
      intro x hx y hy hfeq
      obtain ⟨hx0, hx12⟩ := hbounds x hx
      obtain ⟨hy0, hy12⟩ := hbounds y hy
      omega
    have hx : List.insertionSort (· ≤ ·) (pcs.map fun pc => low + (pc - low) % 12) ∈
        enumerate_base pcs low high := by
      rw [mem_enumerate_base]
      refine ⟨pcs.map fun pc => low + (pc - low) % 12, ?_, rfl, ?_⟩
      · rw [pyProduct_mem_iff]
        apply forall₂_map_self
        intro pc hpc
        exact options_head_mem (by omega)
      · exact ((List.perm_insertionSort (· ≤ ·) _).nodup_iff).mpr hmap
    exact List.ne_nil_of_mem hx
  · intro v hv
    rw [mem_enumerate_base] at hv
    obtain ⟨combo, hcombo, rfl, hnd'⟩ := hv
    have hperm := List.perm_insertionSort (· ≤ ·) combo
    have hsortle : List.Sorted (· ≤ ·) (List.insertionSort (· ≤ ·) combo) :=
      List.sorted_insertionSort _ _
    rw [pyProduct_mem_iff] at hcombo
    refine ⟨hsortle.lt_of_le hnd', hnd', ?_, ?_⟩
    · intro p hp
      have hpc : p ∈ combo := hperm.mem_iff.mp hp
      obtain ⟨l, hl, hpl⟩ := forall₂_mem_exists hcombo p hpc
      obtain ⟨pc, hpcmem, rfl⟩ := List.mem_map.mp hl
      obtain ⟨hlo, hhi, hmod⟩ := mem_options_bounds hpl
      obtain ⟨h0, h12⟩ := hbounds pc hpcmem
      have hmods : p % 12 = pc := by omega
      rw [hmods]
      exact hpcmem
    · intro pc hpc
      obtain ⟨x, hx, hxl⟩ := forall₂_exists_mem hcombo
        (_pc_to_midi_options pc low high) (List.mem_map.mpr ⟨pc, hpc, rfl⟩)
      refine ⟨x, hperm.mem_iff.mpr hx, ?_⟩
      obtain ⟨hlo, hhi, hmod⟩ := mem_options_bounds hxl
      obtain ⟨h0, h12⟩ := hbounds pc hpc
      omega

/-- Counterexample to C3 as stated: the pitch-class list `[11, 11, 11]`
(size at most 4) in the range `[0, 24]` of width 24 yields no candidate at
all — the only realizations of class 11 in range are 11 and 23, so no
duplicate-free assignment of three copies exists. -/
theorem C3_counterexample : enumerate_voicings [11, 11, 11] 0 24 = [] := by decide

/-- Witness for C3 (amended) at `pcs = [0]`, range `[0, 24]`. -/
theorem C3_witness :
    enumerate_voicings [0] 0 24 ≠ [] ∧
    ∀ v ∈ enumerate_voicings [0] 0 24,
      List.Sorted (· < ·) v ∧ v.Nodup ∧
      (∀ p ∈ v, p % 12 ∈ [0]) ∧ ∀ pc ∈ ([0] : List Int), ∃ p ∈ v, p % 12 = pc :=
  C3_enumerate_complete [0] 0 24 (by decide) (by decide) (by decide) (by decide)

end PreludeZero

namespace PreludeZero

namespace Voicing

lemma ne_nil_of_not_isEmpty {l : List (List Int)} (h : ¬ l.isEmpty = true) :
    l ≠ [] := fun hx => h (by rw [hx]; rfl)

lemma fbv_valid_subset (pitch_classes : List Int) (bass_midi : Int)
    (prev_upper : Option (List Int)) (prev_bass : Option Int)
    (low high max_spacing : Int) :
    ∀ c ∈ fbv_valid pitch_classes bass_midi prev_upper prev_bass low high max_spacing,
      c ∈ enumerate_voicings pitch_classes (max low (bass_midi + 1)) high := by
  intro c hc
  cases prev_upper with
  | none =>
    simp only [fbv_valid] at hc
    split_ifs at hc <;>
      first
        | exact hc
        | exact List.mem_of_mem_filter hc
  | some prev =>
    simp only [fbv_valid] at hc
    split_ifs at hc <;>
      first
        | exact hc
        | exact List.mem_of_mem_filter hc
        | exact List.mem_of_mem_filter (List.mem_of_mem_filter hc)

lemma fbv_valid_ne_nil (pitch_classes : List Int) (bass_midi : Int)
    (prev_upper : Option (List Int)) (prev_bass : Option Int)
    (low high max_spacing : Int)
    (h : enumerate_voicings pitch_classes (max low (bass_midi + 1)) high ≠ []) :
    fbv_valid pitch_classes bass_midi prev_upper prev_bass low high max_spacing ≠ [] := by
  cases prev_upper with
  | none =>
    simp only [fbv_valid]
    split_ifs <;>
      first
        | exact h
        | exact ne_nil_of_not_isEmpty (by assumption)
  | some prev =>
    simp only [fbv_valid]
    split_ifs <;>
      first
        | exact h
        | exact ne_nil_of_not_isEmpty (by assumption)

lemma find_best_mem (pitch_classes : List Int) (bass_midi : Int)
    (prev_upper : Option (List Int)) (prev_bass : Option Int)
    (low high max_spacing : Int)
    (h : enumerate_voicings pitch_classes (max low (bass_midi + 1)) high ≠ []) :
    find_best_voicing pitch_classes bass_midi prev_upper prev_bass low high max_spacing ∈
      enumerate_voicings pitch_classes (max low (bass_midi + 1)) high := by
  have hval := fbv_valid_ne_nil pitch_classes bass_midi prev_upper prev_bass
    low high max_spacing h
  have hfb : find_best_voicing pitch_classes bass_midi prev_upper prev_bass
      low high max_spacing
      = pyMin (fbv_score prev_upper (max low (bass_midi + 1)) high)
        (fbv_valid pitch_classes bass_midi prev_upper prev_bass low high max_spacing) := by
    simp only [find_best_voicing]
    rw [if_neg (by simpa [List.isEmpty_iff] using h)]
  rw [hfb]
  exact fbv_valid_subset pitch_classes bass_midi prev_upper prev_bass low high
    max_spacing _
    (pyMin_spec (fbv_score prev_upper (max low (bass_midi + 1)) high)
      (fbv_valid pitch_classes bass_midi prev_upper prev_bass low high max_spacing)
      hval).1

end Voicing

open Voicing

/-- C4: `find_best_voicing` always returns a voicing: when enumeration
produces candidates, the staged relaxation leaves a non-empty pool and one
of the enumerated candidates is selected; when enumeration yields no
candidates, the synthesized per-pitch-class fallback near the range
midpoint is returned.  (The Lean embedding is total, so no exception is
possible on any of these paths.) -/
theorem C4_find_best_total :
    ∀ (pitch_classes : List Int) (bass_midi : Int) (prev_upper : Option (List Int))
      (prev_bass : Option Int) (low high max_spacing : Int),
      pitch_classes ≠ [] →
      (enumerate_voicings pitch_classes (max low (bass_midi + 1)) high = [] →
        find_best_voicing pitch_classes bass_midi prev_upper prev_bass low high
            max_spacing =
          fbv_fallback pitch_classes (max low (bass_midi + 1)) high) ∧
      (enumerate_voicings pitch_classes (max low (bass_midi + 1)) high ≠ [] →
        find_best_voicing pitch_classes bass_midi prev_upper prev_bass low high
            max_spacing ∈
          enumerate_voicings pitch_classes (max low (bass_midi + 1)) high) := by
  intro pcs bass prev pbass low high msp hne
  constructor
  · intro hempty
    simp only [find_best_voicing]
    rw [if_pos (by simp [hempty])]
  · intro hnonempty
    exact find_best_mem pcs bass prev pbass low high msp hnonempty

/-- Witness for C4 at `pcs = [0]`, bass 50, range `[55, 79]`. -/
theorem C4_witness :
    find_best_voicing [0] 50 none none 55 79 12 ∈
      enumerate_voicings [0] (max 55 (50 + 1)) 79 :=
  (C4_find_best_total [0] 50 none none 55 79 12 (by decide)).2 (by decide)

/-- C5 (amended): when every pitch class has a realization in
`[max(low, bass_midi + 1), high]` — so that enumeration does not widen the
range — and enumeration is non-empty (the result is not the synthesized
fallback), every pitch of the returned voicing is at least
`bass_midi + 1`.  (As stated the claim fails: when the range must be
widened, pitches below `bass_midi + 1` can enter and survive the relaxed
filters; see the counterexample.) -/
theorem C5_above_bass :
    ∀ (pitch_classes : List Int) (bass_midi : Int) (prev_upper : Option (List Int))
      (prev_bass : Option Int) (low high max_spacing : Int),
      (∀ pc ∈ pitch_classes,
        _pc_to_midi_options pc (max low (bass_midi + 1)) high ≠ []) →
      enumerate_voicings pitch_classes (max low (bass_midi + 1)) high ≠ [] →
      ∀ p ∈ find_best_voicing pitch_classes bass_midi prev_upper prev_bass low high
          max_spacing,
        bass_midi + 1 ≤ p := by
  intro pcs bass prev pbass low high msp hopts hne p hp
  have hmem := find_best_mem pcs bass prev pbass low high msp hne
  have hguard : ¬ (((pcs.map fun pc =>
      _pc_to_midi_options pc (max low (bass + 1)) high).filter
        fun o => !o.isEmpty).length < pcs.length) := by
    rw [guard_iff]
    rintro ⟨pc, hpc, hempty⟩
    exact hopts pc hpc hempty
  rw [enumerate_voicings_eq, if_neg hguard, mem_enumerate_base] at hmem
  obtain ⟨combo, hcombo, heq, hnd⟩ := hmem
  rw [heq] at hp
  have hpcombo : p ∈ combo := (List.perm_insertionSort (· ≤ ·) combo).mem_iff.mp hp
  rw [pyProduct_mem_iff] at hcombo
  obtain ⟨l, hl, hpl⟩ := forall₂_mem_exists hcombo p hpcombo
  obtain ⟨pc, hpcmem, rfl⟩ := List.mem_map.mp hl
  obtain ⟨hlo, hhi, hmod⟩ := mem_options_bounds hpl
  exact le_trans (le_max_right low (bass + 1)) hlo

unseal Rat.add Rat.sub Rat.mul in
/-- Counterexample to C5 as stated: with `pcs = [0]`, bass 100 and range
`[55, 79]`, the effective lower bound 101 lies above the range, the
enumeration widens down to `[77, 103]`, the candidates `[84]` and `[96]`
both fail the above-bass filter, the relaxation keeps all of them, and the
returned voicing `[84]` is below `bass + 1 = 101` even though enumeration
was non-empty (so the result is not the synthesized fallback). -/
theorem C5_counterexample :
    enumerate_voicings [0] (max 55 (100 + 1)) 79 ≠ [] ∧
    find_best_voicing [0] 100 none none 55 79 12 = [84] ∧
    ¬ ((100 : Int) + 1 ≤ 84) := by
  refine ⟨by decide, by decide, by decide⟩

unseal Rat.add Rat.sub Rat.mul in
/-- Witness for C5 (amended): the voicing returned for `pcs = [0]`, bass 50,
range `[55, 79]` is `[72]`, and its pitch 72 is at least `50 + 1`. -/
theorem C5_witness : (50 : Int) + 1 ≤ 72 :=
  C5_above_bass [0] 50 none none 55 79 12 (by decide) (by decide) 72 (by decide)

/-- C6 (amended): with no previous voicing, `find_best_voicing` selects
from the filtered pool a candidate of minimal compactness score (distance
of the mean pitch from the range midpoint plus half the span).  With a
previous voicing whose voice count differs from every candidate's, the
selected candidate instead minimizes ten times the span; the
center-distance term plays no role in that branch.  (The claim as stated,
which applies the compactness-around-center formula to the
different-voice-count branch as well, is refuted by the counterexample.) -/
theorem C6_compactness_scoring :
    ∀ (pitch_classes : List Int) (bass_midi : Int) (prev_bass : Option Int)
      (low high max_spacing : Int),
      enumerate_voicings pitch_classes (max low (bass_midi + 1)) high ≠ [] →
      ((find_best_voicing pitch_classes bass_midi none prev_bass low high max_spacing ∈
          fbv_valid pitch_classes bass_midi none prev_bass low high max_spacing) ∧
        ∀ c ∈ fbv_valid pitch_classes bass_midi none prev_bass low high max_spacing,
          centerScore (max low (bass_midi + 1)) high
              (find_best_voicing pitch_classes bass_midi none prev_bass low high
                max_spacing) ≤
            centerScore (max low (bass_midi + 1)) high c) ∧
      ∀ prev : List Int, prev ≠ [] →
        (∀ c ∈ fbv_valid pitch_classes bass_midi (some prev) prev_bass low high
            max_spacing, c.length ≠ prev.length) →
        (find_best_voicing pitch_classes bass_midi (some prev) prev_bass low high
            max_spacing ∈
          fbv_valid pitch_classes bass_midi (some prev) prev_bass low high
            max_spacing) ∧
          ∀ c ∈ fbv_valid pitch_classes bass_midi (some prev) prev_bass low high
              max_spacing,
            spanScore (find_best_voicing pitch_classes bass_midi (some prev) prev_bass
                low high max_spacing) ≤
              spanScore c := by
  intro pcs bass pbass low high msp hne
  constructor
  · have hval := fbv_valid_ne_nil pcs bass none pbass low high msp hne
    have hfb : find_best_voicing pcs bass none pbass low high msp
        = pyMin (fbv_score none (max low (bass + 1)) high)
          (fbv_valid pcs bass none pbass low high msp) := by
      simp only [find_best_voicing]
      rw [if_neg (by simpa [List.isEmpty_iff] using hne)]
    obtain ⟨hmem, hle⟩ := pyMin_spec (fbv_score none (max low (bass + 1)) high)
      (fbv_valid pcs bass none pbass low high msp) hval
    rw [hfb]
    exact ⟨hmem, fun c hc => hle c hc⟩
  · intro prev hprev hdiff
    have hval := fbv_valid_ne_nil pcs bass (some prev) pbass low high msp hne
    have hfb : find_best_voicing pcs bass (some prev) pbass low high msp
        = pyMin (fbv_score (some prev) (max low (bass + 1)) high)
          (fbv_valid pcs bass (some prev) pbass low high msp) := by
      simp only [find_best_voicing]
      rw [if_neg (by simpa [List.isEmpty_iff] using hne)]
    obtain ⟨hmem, hle⟩ := pyMin_spec (fbv_score (some prev) (max low (bass + 1)) high)
      (fbv_valid pcs bass (some prev) pbass low high msp) hval
    rw [hfb]
    refine ⟨hmem, fun c hc => ?_⟩
    have hsc : ∀ d ∈ fbv_valid pcs bass (some prev) pbass low high msp,
        fbv_score (some prev) (max low (bass + 1)) high d = spanScore d := by
      intro d hd
      simp only [fbv_score]
      rw [if_neg (by simpa [List.isEmpty_iff] using hprev), if_neg (hdiff d hd)]
    calc spanScore (pyMin (fbv_score (some prev) (max low (bass + 1)) high)
          (fbv_valid pcs bass (some prev) pbass low high msp))
        = fbv_score (some prev) (max low (bass + 1)) high
            (pyMin (fbv_score (some prev) (max low (bass + 1)) high)
              (fbv_valid pcs bass (some prev) pbass low high msp)) :=
          (hsc _ hmem).symm
      _ ≤ fbv_score (some prev) (max low (bass + 1)) high c := hle c hc
      _ = spanScore c := hsc c hc

unseal Rat.add Rat.sub Rat.mul in
/-- Counterexample to C6 as stated: with previous voicing `[65, 68, 70]`
(three voices) and two-voice candidates from `pcs = [0, 2]` in `[60, 73]`
over bass 50, the code returns `[60, 62]`, the candidate of minimal span,
although the candidate `[62, 72]` (also in the filtered pool) has strictly
smaller compactness-around-center score. -/
theorem C6_counterexample :
    find_best_voicing [0, 2] 50 (some [65, 68, 70]) none 60 73 12 = [60, 62] ∧
    [62, 72] ∈ fbv_valid [0, 2] 50 (some [65, 68, 70]) none 60 73 12 ∧
    centerScore (max 60 (50 + 1)) 73 [62, 72] <
      centerScore (max 60 (50 + 1)) 73 [60, 62] := by
  refine ⟨by decide, by decide, by decide⟩

/-- Witness for C6 (amended), first branch, at `pcs = [0]`, bass 50. -/
theorem C6_witness :
    (find_best_voicing [0] 50 none none 55 79 12 ∈
        fbv_valid [0] 50 none none 55 79 12) ∧
      ∀ c ∈ fbv_valid [0] 50 none none 55 79 12,
        centerScore (max 55 (50 + 1)) 79 (find_best_voicing [0] 50 none none 55 79 12) ≤
          centerScore (max 55 (50 + 1)) 79 c :=
  (C6_compactness_scoring [0] 50 none 55 79 12 (by decide)).1

end PreludeZero

namespace PreludeZero

namespace Counterpoint

lemma parallelIssue_some {pairs : List (Option Note × Option Note)} {i : Nat}
    {iss : Issue} (h : parallelIssue pairs i = some iss) :
    iss.severity = Severity.ERROR ∧ iss.rule = "parallel_perfect" ∧ iss.beat = i ∧
    ∃ a1 a2 b1 b2 : Note,
      pairs.getD i (none, none) = (some a1, some a2) ∧
      pairs.getD (i + 1) (none, none) = (some b1, some b2) ∧
      interval_class a1.midi a2.midi ∈ PERFECT_INTERVALS ∧
      interval_class b1.midi b2.midi ∈ PERFECT_INTERVALS ∧
      interval_class a1.midi a2.midi = interval_class b1.midi b2.midi ∧
      b1.midi - a1.midi ≠ 0 ∧ b2.midi - a2.midi ≠ 0 ∧
      (b1.midi - a1.midi).sign = (b2.midi - a2.midi).sign := by
  unfold parallelIssue at h
  split at h
  case _ a1 a2 b1 b2 hA hB =>
    split_ifs at h with h1 h2 h3
    · obtain ⟨hi1, hi2, hi3⟩ := h1
      obtain ⟨hd1, hd2, hd3⟩ := h2
      cases h
      exact ⟨rfl, rfl, rfl, a1, a2, b1, b2, hA, hB, hi1, hi2, hi3, hd1, hd2, hd3⟩
    · obtain ⟨hi1, hi2, hi3⟩ := h1
      obtain ⟨hd1, hd2, hd3⟩ := h2
      cases h
      exact ⟨rfl, rfl, rfl, a1, a2, b1, b2, hA, hB, hi1, hi2, hi3, hd1, hd2, hd3⟩
  case _ x y hno =>
    exact absurd h (by simp)

lemma parallelIssue_isSome {pairs : List (Option Note × Option Note)} {i : Nat}
    {a1 a2 b1 b2 : Note}
    (hA : pairs.getD i (none, none) = (some a1, some a2))
    (hB : pairs.getD (i + 1) (none, none) = (some b1, some b2))
    (h1 : interval_class a1.midi a2.midi ∈ PERFECT_INTERVALS)
    (h2 : interval_class b1.midi b2.midi ∈ PERFECT_INTERVALS)
    (h3 : interval_class a1.midi a2.midi = interval_class b1.midi b2.midi)
    (h4 : b1.midi - a1.midi ≠ 0) (h5 : b2.midi - a2.midi ≠ 0)
    (h6 : (b1.midi - a1.midi).sign = (b2.midi - a2.midi).sign) :
    ∃ iss : Issue, parallelIssue pairs i = some iss ∧ iss.beat = i := by
  unfold parallelIssue
  rw [hA, hB]
  dsimp only
  rw [if_pos ⟨h1, h2, h3⟩, if_pos ⟨h4, h5, h6⟩]
  exact ⟨_, rfl, rfl⟩

end Counterpoint

open Counterpoint

/-- C2: `check_parallels` emits exactly the parallel-perfect issues: every
emitted issue has severity ERROR, rule name `"parallel_perfect"`, and a
beat index at which both voices have a (possibly carried-forward) note at
the aligned timepoints `i` and `i + 1`, the interval class lies in {0, 7}
at both timepoints and is identical at both, and both voices move by
nonzero amounts with equal sign; conversely every index satisfying that
condition receives an issue, and no other issue is emitted. -/
theorem C2_check_parallels :
    ∀ v1 v2 : List Note,
      (∀ iss ∈ check_parallels v1 v2,
        iss.severity = Severity.ERROR ∧ iss.rule = "parallel_perfect" ∧
        parallelAt v1 v2 iss.beat) ∧
      ∀ i : Nat, parallelAt v1 v2 i →
        ∃ iss ∈ check_parallels v1 v2, iss.beat = i := by
  intro v1 v2
  constructor
  · intro iss hmem
    simp only [check_parallels] at hmem
    rw [List.mem_filterMap] at hmem
    obtain ⟨i, hrange, heq⟩ := hmem
    obtain ⟨hsev, hrule, hbeat, a1, a2, b1, b2, hrest⟩ := parallelIssue_some heq
    refine ⟨hsev, hrule, ?_⟩
    rw [hbeat]
    exact ⟨a1, a2, b1, b2, hrest⟩
  · intro i hpar
    obtain ⟨a1, a2, b1, b2, hA, hB, h1, h2, h3, h4, h5, h6⟩ := hpar
    obtain ⟨iss, hsome, hbeat⟩ := parallelIssue_isSome hA hB h1 h2 h3 h4 h5 h6
    have hlen : i + 1 < (_align_simultaneous v1 v2).length := by
      by_contra hcon
      rw [List.getD_eq_default _ _ (show (_align_simultaneous v1 v2).length ≤ i + 1 by
        omega)] at hB
      exact absurd hB (by simp)
    refine ⟨iss, ?_, hbeat⟩
    simp only [check_parallels]
    rw [List.mem_filterMap]
    exact ⟨i, List.mem_range.mpr (by omega), hsome⟩

/-- Witness for C2: two voices a fifth apart moving up a whole step in
parallel (C4, D4 against G4, A4) are flagged at aligned index 0. -/
theorem C2_witness :
    ∃ iss ∈ check_parallels [⟨60, 0, 1⟩, ⟨62, 1, 1⟩] [⟨67, 0, 1⟩, ⟨69, 1, 1⟩],
      iss.beat = 0 :=
  (C2_check_parallels [⟨60, 0, 1⟩, ⟨62, 1, 1⟩] [⟨67, 0, 1⟩, ⟨69, 1, 1⟩]).2 0
    ⟨⟨60, 0, 1⟩, ⟨67, 0, 1⟩, ⟨62, 1, 1⟩, ⟨69, 1, 1⟩, by decide, by decide, by decide,
      by decide, by decide, by decide, by decide, by decide⟩

end PreludeZero
